import Mathlib

set_option maxHeartbeats 1000000

namespace BvBounds

/-- `uMaxInt sz` models `ULLONG_MAX >> (64u - sz)` from `bv_bounds_tactic.cpp`:
the largest unsigned value of bit width `sz`, i.e. `2 ^ sz - 1`. -/
def uMaxInt (sz : Nat) : Nat := 2 ^ sz - 1

/-- The `interval` struct: endpoints `l`, `h`, bit width `sz` and the `tight`
flag.  `l <= h` denotes the contiguous range `[l, h]`; `l > h` denotes the
wrap-around set `[0, h] ∪ [l, uMaxInt sz]`. -/
structure interval where
  l : Nat
  h : Nat
  sz : Nat
  tight : Bool
deriving DecidableEq

/-- The four-argument `interval` constructor, which canonicalizes a wrapped
interval with `l == h + 1` into the full range `[0, uMaxInt sz]`.  In the
source `tight` is a defaulted argument; call sites that do not pass it are
modelled by passing `false` explicitly. -/
def mkInterval (l h sz : Nat) (tight : Bool) : interval :=
  if h < l ∧ l = h + 1 then ⟨0, uMaxInt sz, sz, tight⟩ else ⟨l, h, sz, tight⟩

/-- `interval::is_full`. -/
def interval.is_full (a : interval) : Bool := decide (a.l = 0 ∧ a.h = uMaxInt a.sz)

/-- `interval::is_wrapped`. -/
def interval.is_wrapped (a : interval) : Bool := decide (a.h < a.l)

/-- `interval::is_singleton`. -/
def interval.is_singleton (a : interval) : Bool := decide (a.l = a.h)

/-- `interval::operator==`: compares `l`, `h` and `tight` (not `sz`). -/
def interval.eqb (a b : interval) : Bool := decide (a.l = b.l ∧ a.h = b.h ∧ a.tight = b.tight)

/-- `interval::invariant`. -/
def interval.invariant (a : interval) : Bool :=
  decide (a.l ≤ uMaxInt a.sz) && decide (a.h ≤ uMaxInt a.sz) &&
    (!a.is_wrapped || decide (a.l ≠ a.h + 1))

/-- The value set denoted by an interval, following the comment on the struct:
`l <= h` denotes `[l, h]`, and `l > h` denotes `[0, h] ∪ [l, uMaxInt sz]`. -/
def interval.contains (a : interval) (v : Nat) : Bool :=
  if a.l ≤ a.h then decide (a.l ≤ v ∧ v ≤ a.h) else decide (v ≤ a.h ∨ a.l ≤ v)

/-- `interval::implies`. -/
def interval.implies (a b : interval) : Bool :=
  if b.is_full then true
  else if a.is_full then false
  else if a.is_wrapped then b.is_wrapped && decide (a.h ≤ b.h) && decide (b.l ≤ a.l)
  else if b.is_wrapped then decide (a.h ≤ b.h) || decide (b.l ≤ a.l)
  else decide (b.l ≤ a.l) && decide (a.h ≤ b.h)

/-- The body of `interval::intersect`; `none` models the `return false`
(unsat) outcome.  The wrapped/non-wrapped mixed case recurses once with the
arguments swapped, exactly as the source calls `b.intersect(*this, result)`;
the callee of that call is non-wrapped and never recurses again, so the
recursion is bounded by one swap.  The structural `fuel` argument makes that
bound explicit (`fuel` is never exhausted when starting from `2`). -/
def interval.intersectCore : Nat → interval → interval → Option interval
  | 0, _, _ => none
  | fuel + 1, a, b =>
    if a.is_full || a.eqb b then some b
    else if b.is_full then some a
    else if a.is_wrapped then
      if b.is_wrapped then
        if b.l ≤ a.h then some b
        else if a.l ≤ b.h then some a
        else some (mkInterval (max a.l b.l) (min a.h b.h) a.sz false)
      else interval.intersectCore fuel b a
    else if b.is_wrapped then
      if a.h < b.l ∧ b.h < a.l then none
      else if b.l ≤ a.h ∧ a.l ≤ b.h then some b
      else if b.l ≤ a.h then some (mkInterval b.l a.h a.sz false)
      else some (mkInterval a.l (min a.h b.h) a.sz false)
    else
      if b.h < a.l ∨ a.h < b.l then none
      else some (mkInterval (max a.l b.l) (min a.h b.h) a.sz (a.tight && b.tight))

/-- `interval::intersect`. -/
def interval.intersect (a b : interval) : Option interval :=
  interval.intersectCore 2 a b

/-- `interval::negate`; `none` models the `return false` (empty complement)
outcome.  In the non-tight branch the source constructs
`interval(0, uMaxInt(sz), true)`: the `bool` literal `true` is converted to
the `unsigned` value `1` and passed as the `sz` parameter, while `tight`
keeps its default value `false`. -/
def interval.negate (a : interval) : Option interval :=
  if !a.tight then some (mkInterval 0 (uMaxInt a.sz) 1 false)
  else if a.is_full then none
  else if a.l = 0 then some (mkInterval (a.h + 1) (uMaxInt a.sz) a.sz false)
  else if a.h = uMaxInt a.sz then some (mkInterval 0 (a.l - 1) a.sz false)
  else some (mkInterval (a.h + 1) (a.l - 1) a.sz false)

theorem mkInterval_sz (l h sz : Nat) (t : Bool) : (mkInterval l h sz t).sz = sz := by
  unfold mkInterval; split <;> rfl

theorem mkInterval_tight (l h sz : Nat) (t : Bool) : (mkInterval l h sz t).tight = t := by
  unfold mkInterval; split <;> rfl

theorem invariant_true_iff {a : interval} :
    a.invariant = true ↔
      (a.l ≤ uMaxInt a.sz ∧ a.h ≤ uMaxInt a.sz ∧ (a.h < a.l → a.l ≠ a.h + 1)) := by
  unfold interval.invariant interval.is_wrapped
  simp only [Bool.and_eq_true, Bool.or_eq_true, Bool.not_eq_true', decide_eq_true_eq,
    decide_eq_false_iff_not, not_lt]
  constructor
  · rintro ⟨⟨h1, h2⟩, h3 | h3⟩ <;> exact ⟨h1, h2, by omega⟩
  · rintro ⟨h1, h2, h3⟩
    refine ⟨⟨h1, h2⟩, ?_⟩
    by_cases hw : a.h < a.l
    · exact Or.inr (h3 hw)
    · exact Or.inl (by omega)

theorem contains_true_iff {a : interval} {v : Nat} :
    a.contains v = true ↔
      ((a.l ≤ a.h ∧ a.l ≤ v ∧ v ≤ a.h) ∨ (a.h < a.l ∧ (v ≤ a.h ∨ a.l ≤ v))) := by
  unfold interval.contains
  split <;> simp <;> omega

theorem contains_mk_true_iff {l h sz : Nat} {t : Bool} {v : Nat} :
    (mkInterval l h sz t).contains v = true ↔
      ((h < l ∧ l = h + 1 ∧ v ≤ uMaxInt sz) ∨
       (¬(h < l ∧ l = h + 1) ∧
         ((l ≤ h ∧ l ≤ v ∧ v ≤ h) ∨ (h < l ∧ (v ≤ h ∨ l ≤ v))))) := by
  unfold mkInterval
  split
  · rename_i hc
    simp only [contains_true_iff]
    constructor
    · rintro (⟨_, _, hv⟩ | ⟨hlt, _⟩)
      · exact Or.inl ⟨hc.1, hc.2, hv⟩
      · omega
    · rintro (⟨_, _, hv⟩ | ⟨hnc, _⟩)
      · exact Or.inl ⟨by omega, by omega, hv⟩
      · exact absurd hc hnc
  · rename_i hc
    simp only [contains_true_iff]
    tauto

/-- C7: `negate` on a non-tight interval.  Evaluated at the failing input,
the non-tight width-8 interval `[0, 5]`: the result keeps the endpoints
`0` and `uMaxInt 8 = 255` but carries bit width `1` — the source passes the
`bool` literal `true` as the constructor's `sz` argument — so it is not the
universal interval of width 8 and even violates `interval::invariant`. -/
theorem c7_negate_nontight_width_bug :
    interval.negate ⟨0, 5, 8, false⟩ = some ⟨0, 255, 1, false⟩ ∧
    (⟨0, 255, 1, false⟩ : interval).sz ≠ 8 ∧
    interval.invariant ⟨0, 255, 1, false⟩ = false := by decide

/-- C10: every interval produced by `negate`, for any input interval, carries
`tight = false`: each branch of `negate` builds its result through the
constructor without passing `tight`, so the default `false` is used. -/
theorem c10_negate_not_tight (a r : interval) (hn : a.negate = some r) : r.tight = false := by
  unfold interval.negate at hn
  split_ifs at hn <;>
    simp only [Option.some.injEq] at hn <;>
    rw [← hn] <;>
    exact mkInterval_tight ..

theorem c10_negate_not_tight_witness :
    interval.negate ⟨0, 5, 8, true⟩ = some ⟨6, 255, 8, false⟩ ∧
    (⟨6, 255, 8, false⟩ : interval).tight = false :=
  ⟨by decide, c10_negate_not_tight ⟨0, 5, 8, true⟩ ⟨6, 255, 8, false⟩ (by decide)⟩

/-- C6 counterexample: for the tight, non-full canonical interval `[0, 5]` of
width 8, both negations succeed, but the doubly negated interval is
`⟨0, 255, 1, false⟩`, which differs from the original (endpoints, width and
tight flag all differ): the round-trip `I.negate().negate() == I` fails. -/
theorem c6_negate_roundtrip_cex :
    interval.invariant ⟨0, 5, 8, true⟩ = true ∧
    interval.negate ⟨0, 5, 8, true⟩ = some ⟨6, 255, 8, false⟩ ∧
    interval.negate ⟨6, 255, 8, false⟩ = some ⟨0, 255, 1, false⟩ ∧
    (⟨0, 255, 1, false⟩ : interval) ≠ ⟨0, 5, 8, true⟩ := by decide

/-- C6 amended: for every tight, non-full canonical interval `I`, negation
succeeds, but the result carries `tight = false`, so negating it again takes
the non-tight branch and returns `⟨0, uMaxInt I.sz, 1, false⟩` — never `I`
itself.  The double-negation round-trip fails for every such `I`. -/
theorem c6_negate_roundtrip_amended (a : interval)
    (ht : a.tight = true) (hf : a.is_full = false) :
    ∃ r, a.negate = some r ∧ r.tight = false ∧
      r.negate = some ⟨0, uMaxInt a.sz, 1, false⟩ ∧
      (⟨0, uMaxInt a.sz, 1, false⟩ : interval) ≠ a := by
  have hne : (⟨0, uMaxInt a.sz, 1, false⟩ : interval) ≠ a := by
    intro he
    have : a.tight = false := by rw [← he]
    rw [this] at ht; exact Bool.false_ne_true ht
  have hneg2 : ∀ r : interval, r.tight = false → r.sz = a.sz →
      r.negate = some ⟨0, uMaxInt a.sz, 1, false⟩ := by
    intro r hrt hrsz
    unfold interval.negate
    rw [hrt, hrsz]
    simp [mkInterval, uMaxInt]
  unfold interval.negate
  rw [ht, hf]
  simp only [Bool.not_true, Bool.false_eq_true, if_false]
  split_ifs <;>
    exact ⟨_, rfl, mkInterval_tight .., hneg2 _ (mkInterval_tight ..) (mkInterval_sz ..), hne⟩

theorem c6_negate_roundtrip_amended_witness :
    (⟨0, 5, 8, true⟩ : interval).tight = true ∧
    (⟨0, 5, 8, true⟩ : interval).is_full = false ∧
    ∃ r, (⟨0, 5, 8, true⟩ : interval).negate = some r ∧ r.tight = false ∧
      r.negate = some ⟨0, uMaxInt 8, 1, false⟩ ∧
      (⟨0, uMaxInt 8, 1, false⟩ : interval) ≠ ⟨0, 5, 8, true⟩ :=
  ⟨by decide, by decide, c6_negate_roundtrip_amended ⟨0, 5, 8, true⟩ (by decide) (by decide)⟩

theorem mkInterval_invariant {l h sz : Nat} (t : Bool)
    (hl : l ≤ uMaxInt sz) (hh : h ≤ uMaxInt sz) : (mkInterval l h sz t).invariant = true := by
  unfold mkInterval
  split
  all_goals rw [invariant_true_iff]
  all_goals simp
  all_goals omega

theorem wrapped_true_iff {a : interval} : a.is_wrapped = true ↔ a.h < a.l := by
  unfold interval.is_wrapped; simp

theorem wrapped_false_iff {a : interval} : a.is_wrapped = false ↔ a.l ≤ a.h := by
  unfold interval.is_wrapped; simp

theorem intersect_aux (a b : interval) (ha : a.invariant = true) (hb : b.invariant = true)
    (hsz : a.sz = b.sz) (hside : a.is_wrapped = false ∨ b.is_wrapped = true) :
    (a.intersect b = none → ∀ v, ¬(a.contains v = true ∧ b.contains v = true)) ∧
    (∀ r, a.intersect b = some r → r.invariant = true ∧ r.sz = a.sz ∧
      (∃ v, v ≤ uMaxInt a.sz ∧ a.contains v = true ∧ b.contains v = true) ∧
      (∀ v, v ≤ uMaxInt a.sz → a.contains v = true → b.contains v = true →
        r.contains v = true)) := by
  obtain ⟨ha1, ha2, ha3⟩ := invariant_true_iff.mp ha
  obtain ⟨hb1, hb2, hb3⟩ := invariant_true_iff.mp hb
  rw [← hsz] at hb1 hb2
  unfold interval.intersect
  rw [interval.intersectCore]
  split_ifs with h1 h2 h3 h4 h5 h6 h7 h8 h9 h10 h11
  -- 1: fast path `a.is_full || a == b`, result b
  · have h1' : (a.l = 0 ∧ a.h = uMaxInt a.sz) ∨ (a.l = b.l ∧ a.h = b.h) := by
      simp only [interval.is_full, interval.eqb, Bool.or_eq_true, decide_eq_true_eq] at h1
      tauto
    refine ⟨fun hno => hno.elim, ?_⟩
    intro r hr
    injection hr with hre
    subst hre
    refine ⟨hb, hsz.symm, ?_, fun v _ _ hbv => hbv⟩
    exact ⟨b.l, by omega, by rw [contains_true_iff]; omega, by rw [contains_true_iff]; omega⟩
  -- 2: fast path `b.is_full`, result a
  · have h2' : b.l = 0 ∧ b.h = uMaxInt a.sz := by
      simp only [interval.is_full, decide_eq_true_eq] at h2
      rw [← hsz] at h2
      exact h2
    refine ⟨fun hno => hno.elim, ?_⟩
    intro r hr
    injection hr with hre
    subst hre
    refine ⟨ha, rfl, ?_, fun v _ hav _ => hav⟩
    exact ⟨a.l, by omega, by rw [contains_true_iff]; omega, by rw [contains_true_iff]; omega⟩
  -- 3: wrapped/wrapped, `b.l ≤ a.h`, result b
  · rw [wrapped_true_iff] at h3 h4
    refine ⟨fun hno => hno.elim, ?_⟩
    intro r hr
    injection hr with hre
    subst hre
    refine ⟨hb, hsz.symm, ?_, fun v _ _ hbv => hbv⟩
    exact ⟨uMaxInt a.sz, le_refl _, by rw [contains_true_iff]; omega,
      by rw [contains_true_iff]; omega⟩
  -- 4: wrapped/wrapped, `a.l ≤ b.h`, result a
  · rw [wrapped_true_iff] at h3 h4
    refine ⟨fun hno => hno.elim, ?_⟩
    intro r hr
    injection hr with hre
    subst hre
    refine ⟨ha, rfl, ?_, fun v _ hav _ => hav⟩
    exact ⟨uMaxInt a.sz, le_refl _, by rw [contains_true_iff]; omega,
      by rw [contains_true_iff]; omega⟩
  -- 5: wrapped/wrapped, remaining case, result mkInterval (max ..) (min ..)
  · rw [wrapped_true_iff] at h3 h4
    refine ⟨fun hno => hno.elim, ?_⟩
    intro r hr
    injection hr with hre
    subst hre
    refine ⟨mkInterval_invariant _ (by omega) (by omega), mkInterval_sz .., ?_, ?_⟩
    · exact ⟨uMaxInt a.sz, le_refl _, by rw [contains_true_iff]; omega,
        by rw [contains_true_iff]; omega⟩
    · intro v hv hav hbv
      rw [contains_true_iff] at hav hbv
      rw [contains_mk_true_iff]
      omega
  -- 6: recursion branch, excluded by hside
  · rcases hside with hs | hs
    · exact absurd (h3.symm.trans hs) (by decide)
    · exact absurd hs h4
  -- 7: nonwrapped/wrapped, `a.h < b.l ∧ b.h < a.l`, result none
  · rw [Bool.not_eq_true, wrapped_false_iff] at h3
    refine ⟨?_, fun r hr => hr.elim⟩
    intro _ v hcon
    obtain ⟨hav, hbv⟩ := hcon
    rw [contains_true_iff] at hav hbv
    omega
  -- 8: nonwrapped/wrapped, `b.l ≤ a.h ∧ a.l ≤ b.h`, result b
  · rw [Bool.not_eq_true, wrapped_false_iff] at h3
    rw [wrapped_true_iff] at h7
    refine ⟨fun hno => hno.elim, ?_⟩
    intro r hr
    injection hr with hre
    subst hre
    refine ⟨hb, hsz.symm, ?_, fun v _ _ hbv => hbv⟩
    exact ⟨max a.l b.l, by omega, by rw [contains_true_iff]; omega,
      by rw [contains_true_iff]; omega⟩
  -- 9: nonwrapped/wrapped, `b.l ≤ a.h` only, result mkInterval b.l a.h
  · rw [Bool.not_eq_true, wrapped_false_iff] at h3
    rw [wrapped_true_iff] at h7
    refine ⟨fun hno => hno.elim, ?_⟩
    intro r hr
    injection hr with hre
    subst hre
    refine ⟨mkInterval_invariant _ (by omega) (by omega), mkInterval_sz .., ?_, ?_⟩
    · exact ⟨max a.l b.l, by omega, by rw [contains_true_iff]; omega,
        by rw [contains_true_iff]; omega⟩
    · intro v hv hav hbv
      rw [contains_true_iff] at hav hbv
      rw [contains_mk_true_iff]
      omega
  -- 10: nonwrapped/wrapped, `a.h < b.l`, result mkInterval a.l (min a.h b.h)
  · rw [Bool.not_eq_true, wrapped_false_iff] at h3
    rw [wrapped_true_iff] at h7
    refine ⟨fun hno => hno.elim, ?_⟩
    intro r hr
    injection hr with hre
    subst hre
    refine ⟨mkInterval_invariant _ (by omega) (by omega), mkInterval_sz .., ?_, ?_⟩
    · exact ⟨a.l, by omega, by rw [contains_true_iff]; omega,
        by rw [contains_true_iff]; omega⟩
    · intro v hv hav hbv
      rw [contains_true_iff] at hav hbv
      rw [contains_mk_true_iff]
      omega
  -- 11: nonwrapped/nonwrapped, disjoint, result none
  · rw [Bool.not_eq_true, wrapped_false_iff] at h3 h7
    refine ⟨?_, fun r hr => hr.elim⟩
    intro _ v hcon
    obtain ⟨hav, hbv⟩ := hcon
    rw [contains_true_iff] at hav hbv
    omega
  -- 12: nonwrapped/nonwrapped, overlapping, result mkInterval (max ..) (min ..)
  · rw [Bool.not_eq_true, wrapped_false_iff] at h3 h7
    refine ⟨fun hno => hno.elim, ?_⟩
    intro r hr
    injection hr with hre
    subst hre
    refine ⟨mkInterval_invariant _ (by omega) (by omega), mkInterval_sz .., ?_, ?_⟩
    · exact ⟨max a.l b.l, by omega, by rw [contains_true_iff]; omega,
        by rw [contains_true_iff]; omega⟩
    · intro v hv hav hbv
      rw [contains_true_iff] at hav hbv
      rw [contains_mk_true_iff]
      omega



theorem intersectCore_fuel (n m : Nat) (a b : interval) (hnw : a.is_wrapped = false) :
    interval.intersectCore (n + 1) a b = interval.intersectCore (m + 1) a b := by
  rw [interval.intersectCore, interval.intersectCore]
  split_ifs <;> first | rfl | simp_all

theorem intersect_swap (a b : interval) (haw : a.is_wrapped = true)
    (hbw : b.is_wrapped = false) (h1 : (a.is_full || a.eqb b) = false) :
    a.intersect b = b.intersect a := by
  unfold interval.intersect
  by_cases hbf : b.is_full = true
  · rw [interval.intersectCore]
    simp only [h1, hbf, Bool.false_eq_true, if_false, if_true]
    rw [interval.intersectCore]
    simp [hbf]
  · simp only [Bool.not_eq_true] at hbf
    rw [interval.intersectCore]
    simp only [h1, hbf, haw, hbw, Bool.false_eq_true, if_false, if_true]
    exact intersectCore_fuel 0 1 b a hbw

theorem intersect_main (a b : interval) (ha : a.invariant = true) (hb : b.invariant = true)
    (hsz : a.sz = b.sz) :
    (a.intersect b = none → ∀ v, ¬(a.contains v = true ∧ b.contains v = true)) ∧
    (∀ r, a.intersect b = some r → r.invariant = true ∧ r.sz = a.sz ∧
      (∃ v, v ≤ uMaxInt a.sz ∧ a.contains v = true ∧ b.contains v = true) ∧
      (∀ v, v ≤ uMaxInt a.sz → a.contains v = true → b.contains v = true →
        r.contains v = true)) := by
  cases haw : a.is_wrapped with
  | false => exact intersect_aux a b ha hb hsz (Or.inl haw)
  | true =>
    cases hbw : b.is_wrapped with
    | true => exact intersect_aux a b ha hb hsz (Or.inr hbw)
    | false =>
      have haw' := wrapped_true_iff.mp haw
      have hbw' := wrapped_false_iff.mp hbw
      have h1 : (a.is_full || a.eqb b) = false := by
        rw [Bool.or_eq_false_iff]
        constructor
        · rw [interval.is_full, decide_eq_false_iff_not]
          omega
        · rw [interval.eqb, decide_eq_false_iff_not]
          rintro ⟨e1, e2, _⟩
          omega
      have hsw := intersect_swap a b haw hbw h1
      have haux := intersect_aux b a hb ha hsz.symm (Or.inl hbw)
      rw [hsw]
      refine ⟨?_, ?_⟩
      · intro hno v hcon
        exact haux.1 hno v ⟨hcon.2, hcon.1⟩
      · intro r hr
        obtain ⟨hrinv, hrsz, ⟨w, hw1, hw2, hw3⟩, hsound⟩ := haux.2 r hr
        rw [← hsz] at hw1
        refine ⟨hrinv, by rw [hrsz, ← hsz], ⟨w, hw1, hw3, hw2⟩, ?_⟩
        intro v hv hav hbv
        rw [hsz] at hv
        exact hsound v hv hbv hav

/-- C2 counterexample: the canonical wrapped width-3 intervals `a = ⟨3, 1⟩`
(the set `{0, 1, 3, 4, 5, 6, 7}`) and `b = ⟨6, 4⟩` (the set `{0, 1, 2, 3, 4, 6, 7}`)
have the same width, their set intersection is non-empty, and `intersect`
returns `a` itself; but `5` lies in the returned interval and in `a` while it
does not lie in `b`, so the returned value set is strictly larger than the
exact set intersection. -/
theorem c2_intersect_inexact_cex :
    interval.invariant ⟨3, 1, 3, false⟩ = true ∧
    interval.invariant ⟨6, 4, 3, false⟩ = true ∧
    interval.intersect ⟨3, 1, 3, false⟩ ⟨6, 4, 3, false⟩ = some ⟨3, 1, 3, false⟩ ∧
    (5 : Nat) ≤ uMaxInt 3 ∧
    interval.contains ⟨3, 1, 3, false⟩ 5 = true ∧
    interval.contains ⟨6, 4, 3, false⟩ 5 = false := by decide

/-- C2 amended: for canonical intervals `a`, `b` of the same width,
`intersect` signals emptiness (`none`) exactly when the set intersection of
the two value sets is empty, and any returned interval is a sound
over-approximation: its value set contains the set intersection of `a` and
`b` (but, by the counterexample, not always exactly). -/
theorem c2_intersect_amended (a b : interval) (ha : a.invariant = true)
    (hb : b.invariant = true) (hsz : a.sz = b.sz) :
    (a.intersect b = none ↔
      ∀ v, v ≤ uMaxInt a.sz → ¬(a.contains v = true ∧ b.contains v = true)) ∧
    (∀ r, a.intersect b = some r → ∀ v, v ≤ uMaxInt a.sz →
      a.contains v = true → b.contains v = true → r.contains v = true) := by
  have hm := intersect_main a b ha hb hsz
  constructor
  · constructor
    · intro hn v _ hc
      exact hm.1 hn v hc
    · intro hall
      cases hi : a.intersect b with
      | none => rfl
      | some r =>
        obtain ⟨_, _, ⟨w, hw1, hw2, hw3⟩, _⟩ := hm.2 r hi
        exact absurd ⟨hw2, hw3⟩ (hall w hw1)
  · intro r hr
    exact (hm.2 r hr).2.2.2

theorem c2_intersect_amended_witness :
    interval.invariant ⟨0, 5, 8, true⟩ = true ∧
    interval.invariant ⟨3, 10, 8, true⟩ = true ∧
    interval.intersect ⟨0, 5, 8, true⟩ ⟨3, 10, 8, true⟩ = some ⟨3, 5, 8, true⟩ ∧
    interval.contains ⟨3, 5, 8, true⟩ 4 = true :=
  ⟨by decide, by decide, by decide,
    (c2_intersect_amended ⟨0, 5, 8, true⟩ ⟨3, 10, 8, true⟩ (by decide) (by decide) rfl).2
      ⟨3, 5, 8, true⟩ (by decide) 4 (by decide) (by decide) (by decide)⟩


/-- A minimal model of the expressions the simplifier inspects: bit-vector
numerals (`m_bv.is_numeral`), opaque non-numeral bit-vector subexpressions
(`var`), the three recognized atom shapes (`bvule`, `bvsle`, `=`), negation,
and the boolean constants produced by rewriting. -/
inductive bexpr where
  | num (n sz : Nat)
  | var (id sz : Nat)
  | ule (a b : bexpr)
  | sle (a b : bexpr)
  | eq (a b : bexpr)
  | not (a : bexpr)
  | btrue
  | bfalse
deriving DecidableEq

/-- `m_bv.is_numeral(e)` (no width restriction). -/
def isNumeral : bexpr → Bool
  | .num _ _ => true
  | _ => false

/-- `bv_bounds_simplifier::is_number`: a numeral together with its width,
restricted to widths of at most 64 bits. -/
def is_number : bexpr → Option (Nat × Nat)
  | .num n sz => if sz ≤ 64 then some (n, sz) else none
  | _ => none

/-- `m_bv.get_bv_size` on the terms of the model that have a width. -/
def bwidth : bexpr → Nat
  | .num _ sz => sz
  | .var _ sz => sz
  | _ => 0

/-- `m.is_bool`. -/
def isBool : bexpr → Bool
  | .ule _ _ => true
  | .sle _ _ => true
  | .eq _ _ => true
  | .not _ => true
  | .btrue => true
  | .bfalse => true
  | _ => false

/-- `bv_bounds_simplifier::is_bound`: recognizes `numeral ≤ᵤ t`, `t ≤ᵤ numeral`,
`numeral ≤ₛ t`, `t ≤ₛ numeral`, `numeral = t` and `t = numeral` (numeral on
either side, the other side not a numeral), and returns the constrained
subexpression together with the extracted tight interval. -/
def is_bound : bexpr → Option (bexpr × interval)
  | .ule lhs rhs =>
    match is_number lhs with
    | some (n, sz) =>
      if isNumeral rhs then none
      else some (rhs, mkInterval n (uMaxInt sz) sz true)
    | none =>
      match is_number rhs with
      | some (n, sz) => some (lhs, mkInterval 0 n sz true)
      | none => none
  | .sle lhs rhs =>
    match is_number lhs with
    | some (n, sz) =>
      if isNumeral rhs then none
      else some (rhs, mkInterval n (2 ^ (sz - 1) - 1) sz true)
    | none =>
      match is_number rhs with
      | some (n, sz) => some (lhs, mkInterval (2 ^ (sz - 1)) n sz true)
      | none => none
  | .eq lhs rhs =>
    match is_number lhs with
    | some (n, sz) =>
      if isNumeral rhs then none
      else some (rhs, mkInterval n n sz true)
    | none =>
      match is_number rhs with
      | some (n, sz) => some (lhs, mkInterval n n sz true)
      | none => none
  | _ => none

/-- Sorts of the expression model: fixed-width bit-vectors and booleans. -/
inductive sty where
  | bv (sz : Nat)
  | bool
deriving DecidableEq

/-- The sort of a comparison or equality: boolean when both operands are
bit-vectors of the same width. -/
def cmpSort (o1 o2 : Option sty) : Option sty :=
  match o1, o2 with
  | some (.bv s1), some (.bv s2) => if s1 = s2 then some .bool else none
  | _, _ => none

/-- Well-sortedness of model expressions: numerals carry an in-range value and
a positive width, comparisons and equalities relate two bit-vector terms of
the same width, negation applies to booleans. -/
def sortOf : bexpr → Option sty
  | .num n sz => if 1 ≤ sz ∧ n ≤ uMaxInt sz then some (.bv sz) else none
  | .var _ sz => if 1 ≤ sz then some (.bv sz) else none
  | .ule a b => cmpSort (sortOf a) (sortOf b)
  | .sle a b => cmpSort (sortOf a) (sortOf b)
  | .eq a b => cmpSort (sortOf a) (sortOf b)
  | .not a =>
    match sortOf a with
    | some .bool => some .bool
    | _ => none
  | .btrue => some .bool
  | .bfalse => some .bool

/-- The value of a bit-vector term under a valuation `ρ` of the non-numeral
subexpressions: numerals denote their own value, everything else is looked up
in `ρ`. -/
def beval (ρ : bexpr → Nat) (e : bexpr) : Nat :=
  match e with
  | .num n _ => n
  | e' => ρ e'

/-- Two's-complement reading of a width-`sz` unsigned value. -/
def toInt (sz v : Nat) : Int :=
  if v < 2 ^ (sz - 1) then (v : Int) else (v : Int) - ((2 ^ sz : Nat) : Int)

/-- Truth of one of the three recognized atom shapes under a valuation. -/
def holdsAtom (ρ : bexpr → Nat) : bexpr → Bool
  | .ule a b => decide (beval ρ a ≤ beval ρ b)
  | .sle a b => decide (toInt (bwidth a) (beval ρ a) ≤ toInt (bwidth b) (beval ρ b))
  | .eq a b => decide (beval ρ a = beval ρ b)
  | _ => false

/-- Truth of a boolean expression (atoms, their negations, constants). -/
def holdsB (ρ : bexpr → Nat) : bexpr → Bool
  | .not a => !holdsB ρ a
  | .btrue => true
  | .bfalse => false
  | e => holdsAtom ρ e



theorem cmpSort_ne_bv (o1 o2 : Option sty) (s : Nat) : cmpSort o1 o2 ≠ some (.bv s) := by
  rcases o1 with _ | t1
  · simp [cmpSort]
  cases t1 with
  | bool => simp [cmpSort]
  | bv s1 =>
    rcases o2 with _ | t2
    · simp [cmpSort]
    cases t2 with
    | bool => simp [cmpSort]
    | bv s2 => by_cases he : s1 = s2 <;> simp [cmpSort, he]

theorem cmpSort_elim {o1 o2 : Option sty} (h : cmpSort o1 o2 = some .bool) :
    ∃ s, o1 = some (.bv s) ∧ o2 = some (.bv s) := by
  rcases o1 with _ | t1
  · exact Option.noConfusion h
  cases t1 with
  | bool => exact Option.noConfusion h
  | bv s1 =>
    rcases o2 with _ | t2
    · exact Option.noConfusion h
    cases t2 with
    | bool => exact Option.noConfusion h
    | bv s2 =>
      by_cases he : s1 = s2
      · subst he
        exact ⟨s1, rfl, rfl⟩
      · simp [cmpSort, he] at h

theorem is_number_some {e : bexpr} {n sz : Nat} (h : is_number e = some (n, sz)) :
    e = .num n sz ∧ sz ≤ 64 := by
  cases e with
  | num n' sz' =>
    unfold is_number at h
    split at h
    · rename_i n'' sz'' heq
      injection heq with e1 e2
      subst e1; subst e2
      split at h
      · simp only [Option.some.injEq, Prod.mk.injEq] at h
        obtain ⟨rfl, rfl⟩ := h
        exact ⟨rfl, by assumption⟩
      · exact Option.noConfusion h
    · rename_i hcontra
      exact absurd rfl (hcontra n' sz')
  | var i s => exact Option.noConfusion h
  | ule a b => exact Option.noConfusion h
  | sle a b => exact Option.noConfusion h
  | eq a b => exact Option.noConfusion h
  | not a => exact Option.noConfusion h
  | btrue => exact Option.noConfusion h
  | bfalse => exact Option.noConfusion h

theorem is_number_none_num {n sz : Nat} (hsz : sz ≤ 64) :
    is_number (.num n sz) ≠ none := by
  unfold is_number
  simp [hsz]

theorem bv_shape {e : bexpr} {s : Nat} (h : sortOf e = some (.bv s)) :
    (∃ n, e = .num n s ∧ 1 ≤ s ∧ n ≤ uMaxInt s) ∨ (∃ i, e = .var i s ∧ 1 ≤ s) := by
  cases e with
  | num n sz =>
    unfold sortOf at h
    split at h
    · rename_i hc
      simp only [Option.some.injEq, sty.bv.injEq] at h
      subst h
      exact Or.inl ⟨n, rfl, hc.1, hc.2⟩
    · exact Option.noConfusion h
  | var i sz =>
    unfold sortOf at h
    split at h
    · rename_i hc
      simp only [Option.some.injEq, sty.bv.injEq] at h
      subst h
      exact Or.inr ⟨i, rfl, hc⟩
    · exact Option.noConfusion h
  | ule a b =>
    unfold sortOf at h
    exact absurd h (cmpSort_ne_bv _ _ _)
  | sle a b =>
    unfold sortOf at h
    exact absurd h (cmpSort_ne_bv _ _ _)
  | eq a b =>
    unfold sortOf at h
    exact absurd h (cmpSort_ne_bv _ _ _)
  | not a =>
    unfold sortOf at h
    rcases hsa : sortOf a with _ | t
    · rw [hsa] at h
      exact Option.noConfusion h
    · rw [hsa] at h
      cases t with
      | bv s' => exact Option.noConfusion h
      | bool =>
        injection h with h'
        exact sty.noConfusion h'
  | btrue =>
    injection h with h'
    exact sty.noConfusion h'
  | bfalse =>
    injection h with h'
    exact sty.noConfusion h'

theorem ule_lhs_contains_iff {n s v : Nat} (hn : n ≤ uMaxInt s) (hv : v ≤ uMaxInt s) :
    ((mkInterval n (uMaxInt s) s true).contains v = true) ↔ n ≤ v := by
  rw [contains_mk_true_iff]
  omega

theorem ule_rhs_contains_iff {n s v : Nat} :
    ((mkInterval 0 n s true).contains v = true) ↔ v ≤ n := by
  rw [contains_mk_true_iff]
  omega

theorem pow_split {s : Nat} (hs1 : 1 ≤ s) : 2 ^ s = 2 * 2 ^ (s - 1) := by
  conv_lhs => rw [show s = (s - 1) + 1 by omega]
  rw [pow_succ]
  ring

theorem sle_lhs_contains_iff {n s v : Nat} (hs1 : 1 ≤ s) (hn : n ≤ uMaxInt s)
    (hv : v ≤ uMaxInt s) :
    ((mkInterval n (2 ^ (s - 1) - 1) s true).contains v = true) ↔ toInt s n ≤ toInt s v := by
  have h2 := pow_split hs1
  have hp : 1 ≤ 2 ^ (s - 1) := Nat.one_le_two_pow
  rw [contains_mk_true_iff]
  unfold toInt
  unfold uMaxInt at hn hv ⊢
  split_ifs <;> omega

theorem sle_rhs_contains_iff {n s v : Nat} (hs1 : 1 ≤ s) (hn : n ≤ uMaxInt s)
    (hv : v ≤ uMaxInt s) :
    ((mkInterval (2 ^ (s - 1)) n s true).contains v = true) ↔ toInt s v ≤ toInt s n := by
  have h2 := pow_split hs1
  have hp : 1 ≤ 2 ^ (s - 1) := Nat.one_le_two_pow
  rw [contains_mk_true_iff]
  unfold toInt
  unfold uMaxInt at hn hv ⊢
  split_ifs <;> omega

theorem eq_contains_iff {n s v : Nat} :
    ((mkInterval n n s true).contains v = true) ↔ v = n := by
  rw [contains_mk_true_iff]
  omega



theorem is_bound_spec {e t1 : bexpr} {b : interval} (hs : sortOf e = some .bool)
    (hb : is_bound e = some (t1, b)) :
    (∃ i, t1 = .var i b.sz) ∧ b.invariant = true ∧ b.tight = true ∧
      1 ≤ b.sz ∧ b.sz ≤ 64 ∧
      ∀ ρ : bexpr → Nat, beval ρ t1 ≤ uMaxInt b.sz →
        (holdsAtom ρ e = true ↔ b.contains (beval ρ t1) = true) := by
  cases e with
  | num n sz => exact Option.noConfusion hb
  | var i sz => exact Option.noConfusion hb
  | btrue => exact Option.noConfusion hb
  | bfalse => exact Option.noConfusion hb
  | not a => exact Option.noConfusion hb
  | ule lhs rhs =>
    unfold sortOf at hs
    obtain ⟨s, hsl, hsr⟩ := cmpSort_elim hs
    simp only [is_bound] at hb
    split at hb
    · rename_i n sz hml
      obtain ⟨rfl, hsz64⟩ := is_number_some hml
      split at hb
      · exact Option.noConfusion hb
      · rename_i hrn
        simp only [Option.some.injEq, Prod.mk.injEq] at hb
        obtain ⟨rfl, rfl⟩ := hb
        rcases bv_shape hsl with ⟨n', he, hs1, hn⟩ | ⟨i, he, _⟩
        · injection he with e1 e2
          subst e1; subst e2
          rcases bv_shape hsr with ⟨m, her, _, _⟩ | ⟨i, her, _⟩
          · subst her
            simp [isNumeral] at hrn
          · subst her
            refine ⟨⟨i, by rw [mkInterval_sz]⟩,
              mkInterval_invariant _ hn (le_refl _), mkInterval_tight .., ?_, ?_, ?_⟩
            · rw [mkInterval_sz]; exact hs1
            · rw [mkInterval_sz]; exact hsz64
            · intro ρ hv
              rw [mkInterval_sz] at hv
              simp only [holdsAtom, decide_eq_true_eq]
              rw [show beval ρ (.num n sz) = n from rfl]
              exact (ule_lhs_contains_iff hn hv).symm
        · exact bexpr.noConfusion he
    · rename_i hml
      split at hb
      · rename_i n sz hmr
        obtain ⟨rfl, hsz64⟩ := is_number_some hmr
        simp only [Option.some.injEq, Prod.mk.injEq] at hb
        obtain ⟨rfl, rfl⟩ := hb
        rcases bv_shape hsr with ⟨n', her, hs1, hn⟩ | ⟨i, her, _⟩
        · injection her with e1 e2
          subst e1; subst e2
          rcases bv_shape hsl with ⟨m, hel, _, _⟩ | ⟨i, hel, _⟩
          · subst hel
            exact absurd hml (is_number_none_num hsz64)
          · subst hel
            refine ⟨⟨i, by rw [mkInterval_sz]⟩,
              mkInterval_invariant _ (Nat.zero_le _) hn, mkInterval_tight .., ?_, ?_, ?_⟩
            · rw [mkInterval_sz]; exact hs1
            · rw [mkInterval_sz]; exact hsz64
            · intro ρ hv
              rw [mkInterval_sz] at hv
              simp only [holdsAtom, decide_eq_true_eq]
              rw [show beval ρ (.num n sz) = n from rfl]
              exact ule_rhs_contains_iff.symm
        · exact bexpr.noConfusion her
      · exact Option.noConfusion hb
  | sle lhs rhs =>
    unfold sortOf at hs
    obtain ⟨s, hsl, hsr⟩ := cmpSort_elim hs
    simp only [is_bound] at hb
    split at hb
    · rename_i n sz hml
      obtain ⟨rfl, hsz64⟩ := is_number_some hml
      split at hb
      · exact Option.noConfusion hb
      · rename_i hrn
        simp only [Option.some.injEq, Prod.mk.injEq] at hb
        obtain ⟨rfl, rfl⟩ := hb
        rcases bv_shape hsl with ⟨n', he, hs1, hn⟩ | ⟨i, he, _⟩
        · injection he with e1 e2
          subst e1; subst e2
          rcases bv_shape hsr with ⟨m, her, _, _⟩ | ⟨i, her, _⟩
          · subst her
            simp [isNumeral] at hrn
          · subst her
            have hh : 2 ^ (sz - 1) - 1 ≤ uMaxInt sz := by
              have := pow_split hs1
              unfold uMaxInt
              omega
            refine ⟨⟨i, by rw [mkInterval_sz]⟩,
              mkInterval_invariant _ hn hh, mkInterval_tight .., ?_, ?_, ?_⟩
            · rw [mkInterval_sz]; exact hs1
            · rw [mkInterval_sz]; exact hsz64
            · intro ρ hv
              rw [mkInterval_sz] at hv
              simp only [holdsAtom, decide_eq_true_eq]
              rw [show bwidth (bexpr.num n sz) = sz from rfl,
                show bwidth (bexpr.var i sz) = sz from rfl,
                show beval ρ (.num n sz) = n from rfl]
              exact (sle_lhs_contains_iff hs1 hn hv).symm
        · exact bexpr.noConfusion he
    · rename_i hml
      split at hb
      · rename_i n sz hmr
        obtain ⟨rfl, hsz64⟩ := is_number_some hmr
        simp only [Option.some.injEq, Prod.mk.injEq] at hb
        obtain ⟨rfl, rfl⟩ := hb
        rcases bv_shape hsr with ⟨n', her, hs1, hn⟩ | ⟨i, her, _⟩
        · injection her with e1 e2
          subst e1; subst e2
          rcases bv_shape hsl with ⟨m, hel, _, _⟩ | ⟨i, hel, _⟩
          · subst hel
            exact absurd hml (is_number_none_num hsz64)
          · subst hel
            have hl : 2 ^ (sz - 1) ≤ uMaxInt sz := by
              have := pow_split hs1
              have hp : 1 ≤ 2 ^ (sz - 1) := Nat.one_le_two_pow
              unfold uMaxInt
              omega
            refine ⟨⟨i, by rw [mkInterval_sz]⟩,
              mkInterval_invariant _ hl hn, mkInterval_tight .., ?_, ?_, ?_⟩
            · rw [mkInterval_sz]; exact hs1
            · rw [mkInterval_sz]; exact hsz64
            · intro ρ hv
              rw [mkInterval_sz] at hv
              simp only [holdsAtom, decide_eq_true_eq]
              rw [show bwidth (bexpr.num n sz) = sz from rfl,
                show bwidth (bexpr.var i sz) = sz from rfl,
                show beval ρ (.num n sz) = n from rfl]
              exact (sle_rhs_contains_iff hs1 hn hv).symm
        · exact bexpr.noConfusion her
      · exact Option.noConfusion hb
  | eq lhs rhs =>
    unfold sortOf at hs
    obtain ⟨s, hsl, hsr⟩ := cmpSort_elim hs
    simp only [is_bound] at hb
    split at hb
    · rename_i n sz hml
      obtain ⟨rfl, hsz64⟩ := is_number_some hml
      split at hb
      · exact Option.noConfusion hb
      · rename_i hrn
        simp only [Option.some.injEq, Prod.mk.injEq] at hb
        obtain ⟨rfl, rfl⟩ := hb
        rcases bv_shape hsl with ⟨n', he, hs1, hn⟩ | ⟨i, he, _⟩
        · injection he with e1 e2
          subst e1; subst e2
          rcases bv_shape hsr with ⟨m, her, _, _⟩ | ⟨i, her, _⟩
          · subst her
            simp [isNumeral] at hrn
          · subst her
            refine ⟨⟨i, by rw [mkInterval_sz]⟩,
              mkInterval_invariant _ hn hn, mkInterval_tight .., ?_, ?_, ?_⟩
            · rw [mkInterval_sz]; exact hs1
            · rw [mkInterval_sz]; exact hsz64
            · intro ρ hv
              rw [mkInterval_sz] at hv
              simp only [holdsAtom, decide_eq_true_eq]
              rw [show beval ρ (.num n sz) = n from rfl]
              rw [eq_contains_iff]
              exact eq_comm
        · exact bexpr.noConfusion he
    · rename_i hml
      split at hb
      · rename_i n sz hmr
        obtain ⟨rfl, hsz64⟩ := is_number_some hmr
        simp only [Option.some.injEq, Prod.mk.injEq] at hb
        obtain ⟨rfl, rfl⟩ := hb
        rcases bv_shape hsr with ⟨n', her, hs1, hn⟩ | ⟨i, her, _⟩
        · injection her with e1 e2
          subst e1; subst e2
          rcases bv_shape hsl with ⟨m, hel, _, _⟩ | ⟨i, hel, _⟩
          · subst hel
            exact absurd hml (is_number_none_num hsz64)
          · subst hel
            refine ⟨⟨i, by rw [mkInterval_sz]⟩,
              mkInterval_invariant _ hn hn, mkInterval_tight .., ?_, ?_, ?_⟩
            · rw [mkInterval_sz]; exact hs1
            · rw [mkInterval_sz]; exact hsz64
            · intro ρ hv
              rw [mkInterval_sz] at hv
              simp only [holdsAtom, decide_eq_true_eq]
              rw [show beval ρ (.num n sz) = n from rfl]
              rw [eq_contains_iff]
        · exact bexpr.noConfusion her
      · exact Option.noConfusion hb

/-- C3: extraction soundness.  For every well-sorted atom of one of the three
recognized shapes (the extractor succeeds on it), with the constrained
subexpression evaluating to a width-bounded value, if the valuation satisfies
the atom then the extracted interval contains the subexpression's value. -/
theorem c3_extraction_sound (e t1 : bexpr) (b : interval) (ρ : bexpr → Nat)
    (hs : sortOf e = some .bool) (hb : is_bound e = some (t1, b))
    (hv : beval ρ t1 ≤ uMaxInt b.sz) (hsat : holdsAtom ρ e = true) :
    b.contains (beval ρ t1) = true :=
  (((is_bound_spec hs hb).2.2.2.2.2) ρ hv).mp hsat

theorem c3_extraction_sound_witness :
    sortOf (.ule (.var 0 8) (.num 5 8)) = some .bool ∧
    is_bound (.ule (.var 0 8) (.num 5 8)) = some (.var 0 8, ⟨0, 5, 8, true⟩) ∧
    holdsAtom (fun e => if e = .var 0 8 then 3 else 0) (.ule (.var 0 8) (.num 5 8)) = true ∧
    interval.contains ⟨0, 5, 8, true⟩ 3 = true :=
  ⟨by decide, by decide, by decide,
    c3_extraction_sound (.ule (.var 0 8) (.num 5 8)) (.var 0 8) ⟨0, 5, 8, true⟩
      (fun e => if e = .var 0 8 then 3 else 0) (by decide) (by decide) (by decide) (by decide)⟩


/-- The `undo_bound` record pushed on the scope stack: the constrained
subexpression, the previous interval, and whether the entry was freshly
inserted. -/
structure undo_bound where
  e : bexpr
  b : interval
  fresh : Bool
deriving DecidableEq

/-- `obj_map::find` on the bound map, modelled as an association list. -/
def mfind : List (bexpr × interval) → bexpr → Option interval
  | [], _ => none
  | (k, v) :: rest, k' => if k = k' then some v else mfind rest k'

/-- `obj_map::insert`: overwrite the entry if the key is present, append a new
entry otherwise. -/
def minsert : List (bexpr × interval) → bexpr → interval → List (bexpr × interval)
  | [], k, v => [(k, v)]
  | (k', v') :: rest, k, v =>
    if k' = k then (k, v) :: rest else (k', v') :: minsert rest k v

/-- `obj_map::erase`. -/
def merase : List (bexpr × interval) → bexpr → List (bexpr × interval)
  | [], _ => []
  | (k', v') :: rest, k => if k' = k then rest else (k', v') :: merase rest k

/-- The mutable state of `bv_bounds_simplifier`: the bound map `m_bound` and
the scope stack `m_scopes` (newest undo record first; the source stores the
stack in a vector and walks it from the back). -/
structure bstate where
  bound : List (bexpr × interval)
  scopes : List undo_bound
deriving DecidableEq

/-- The freshly constructed simplifier state: empty bound map, empty scope
stack (also the state produced by `translate`). -/
def initState : bstate := ⟨[], []⟩

/-- The `while (m.is_not(t, t)) sign = !sign;` loop of `assert_expr` and
`simplify`: strips leading negations, flipping the polarity. -/
def stripNot : bexpr → Bool → bexpr × Bool
  | .not t, sign => stripNot t (!sign)
  | t, sign => (t, sign)

/-- `bv_bounds_simplifier::assert_expr`.  On a negated extracted bound the
source runs `VERIFY(b.negate(b))`: `negate` fails only on a full tight
interval, and in that case the release-build `VERIFY` reports the violation
and continues with `b` unmodified (`negate` does not write its result before
returning `false`); this is the `Option.getD` fallback.  A fresh insertion
pushes an undo record holding a default-constructed `interval()`, which is
never read back; it is modelled as the zero interval. -/
def assert_expr (s : bstate) (t : bexpr) (sign : Bool) : Bool × bstate :=
  match is_bound (stripNot t sign).1 with
  | none => (true, s)
  | some (t1, b0) =>
    let b := if (stripNot t sign).2 then (interval.negate b0).getD b0 else b0
    match mfind s.bound t1 with
    | some old =>
      match old.intersect b with
      | none => (false, s)
      | some intr =>
        if old.eqb intr then (true, s)
        else (true, ⟨minsert s.bound t1 intr, ⟨t1, old, false⟩ :: s.scopes⟩)
    | none => (true, ⟨minsert s.bound t1 b, ⟨t1, mkInterval 0 0 0 false, true⟩ :: s.scopes⟩)

/-- One undo record applied to the bound map, as in the loop of `pop`:
erase freshly inserted entries, reinstate the recorded interval otherwise. -/
def undoStep (u : undo_bound) (m : List (bexpr × interval)) : List (bexpr × interval) :=
  if u.fresh then merase m u.e else minsert m u.e u.b

/-- The undo loop of `pop`, newest record first. -/
def undoList : List undo_bound → List (bexpr × interval) → List (bexpr × interval)
  | [], m => m
  | u :: rest, m => undoList rest (undoStep u m)

/-- `bv_bounds_simplifier::pop`: no-op on an empty scope stack; resetting both
map and stack when the target level is zero; otherwise undoing the top
`num_scopes` records and shrinking the stack. -/
def pop (s : bstate) (num_scopes : Nat) : bstate :=
  if s.scopes = [] then s
  else if s.scopes.length - num_scopes = 0 then ⟨[], []⟩
  else ⟨undoList (s.scopes.take num_scopes) s.bound, s.scopes.drop num_scopes⟩

/-- `bv_bounds_simplifier::scope_level`. -/
def scope_level (s : bstate) : Nat := s.scopes.length

/-- A sequence of `assert_expr` calls, stopping at the first failure and
reporting whether all of them succeeded. -/
def assertAll (s : bstate) : List (bexpr × Bool) → Bool × bstate
  | [] => (true, s)
  | (t, sign) :: rest =>
    match assert_expr s t sign with
    | (true, s2) => assertAll s2 rest
    | (false, s2) => (false, s2)



theorem assert_expr_none (s : bstate) (t : bexpr) (sign : Bool)
    (h : is_bound (stripNot t sign).1 = none) : assert_expr s t sign = (true, s) := by
  unfold assert_expr
  rw [h]

theorem assert_expr_fresh (s : bstate) (t : bexpr) (sign : Bool) (t1 : bexpr) (b0 : interval)
    (h : is_bound (stripNot t sign).1 = some (t1, b0)) (hm : mfind s.bound t1 = none) :
    assert_expr s t sign =
      (true, ⟨minsert s.bound t1
                (if (stripNot t sign).2 then (interval.negate b0).getD b0 else b0),
              ⟨t1, mkInterval 0 0 0 false, true⟩ :: s.scopes⟩) := by
  unfold assert_expr
  rw [h]
  dsimp only
  rw [hm]

theorem assert_expr_old (s : bstate) (t : bexpr) (sign : Bool) (t1 : bexpr) (b0 old : interval)
    (h : is_bound (stripNot t sign).1 = some (t1, b0)) (hm : mfind s.bound t1 = some old) :
    assert_expr s t sign =
      (match old.intersect (if (stripNot t sign).2 then (interval.negate b0).getD b0 else b0) with
       | none => (false, s)
       | some intr =>
         if old.eqb intr then (true, s)
         else (true, ⟨minsert s.bound t1 intr, ⟨t1, old, false⟩ :: s.scopes⟩)) := by
  unfold assert_expr
  rw [h]
  dsimp only
  rw [hm]



theorem mfind_minsert_cancel {m : List (bexpr × interval)} {k : bexpr} {v old : interval}
    (h : mfind m k = some old) : minsert (minsert m k v) k old = m := by
  induction m with
  | nil => exact Option.noConfusion h
  | cons p rest ih =>
    obtain ⟨k', v'⟩ := p
    unfold mfind at h
    by_cases hk : k' = k
    · rw [if_pos hk] at h
      injection h with h'
      subst h'
      subst hk
      simp [minsert]
    · rw [if_neg hk] at h
      simp only [minsert, if_neg hk]
      rw [ih h]

theorem merase_minsert_cancel {m : List (bexpr × interval)} {k : bexpr} {v : interval}
    (h : mfind m k = none) : merase (minsert m k v) k = m := by
  induction m with
  | nil => simp [minsert, merase]
  | cons p rest ih =>
    obtain ⟨k', v'⟩ := p
    unfold mfind at h
    by_cases hk : k' = k
    · rw [if_pos hk] at h
      exact Option.noConfusion h
    · rw [if_neg hk] at h
      simp only [minsert, if_neg hk, merase]
      rw [ih h]

theorem assert_step (s : bstate) (t : bexpr) (sign : Bool) :
    (assert_expr s t sign).2 = s ∨
    (∃ u, (assert_expr s t sign).2.scopes = u :: s.scopes ∧
      undoStep u (assert_expr s t sign).2.bound = s.bound) := by
  cases hib : is_bound (stripNot t sign).1 with
  | none => rw [assert_expr_none s t sign hib]; exact Or.inl rfl
  | some p =>
    obtain ⟨t1, b0⟩ := p
    cases hmf : mfind s.bound t1 with
    | none =>
      rw [assert_expr_fresh s t sign t1 b0 hib hmf]
      refine Or.inr ⟨⟨t1, mkInterval 0 0 0 false, true⟩, rfl, ?_⟩
      unfold undoStep
      rw [if_pos rfl]
      exact merase_minsert_cancel hmf
    | some old =>
      rw [assert_expr_old s t sign t1 b0 old hib hmf]
      cases hint : old.intersect
          (if (stripNot t sign).2 then (interval.negate b0).getD b0 else b0) with
      | none => exact Or.inl rfl
      | some intr =>
        dsimp only
        by_cases heq : old.eqb intr = true
        · rw [if_pos heq]; exact Or.inl rfl
        · rw [if_neg heq]
          refine Or.inr ⟨⟨t1, old, false⟩, rfl, ?_⟩
          unfold undoStep
          rw [if_neg (by simp)]
          exact mfind_minsert_cancel hmf

theorem undoList_append (xs ys : List undo_bound) (m : List (bexpr × interval)) :
    undoList (xs ++ ys) m = undoList ys (undoList xs m) := by
  induction xs generalizing m with
  | nil => rfl
  | cons u rest ih =>
    simp only [List.cons_append, undoList, List.append_eq]
    rw [ih]

theorem assertAll_trace (s : bstate) (facts : List (bexpr × Bool)) {s' : bstate}
    (h : assertAll s facts = (true, s')) :
    ∃ us, s'.scopes = us ++ s.scopes ∧ undoList us s'.bound = s.bound := by
  induction facts generalizing s with
  | nil =>
    unfold assertAll at h
    injection h with h1 h2
    subst h2
    exact ⟨[], rfl, rfl⟩
  | cons f rest ih =>
    obtain ⟨t, sign⟩ := f
    unfold assertAll at h
    cases hr : assert_expr s t sign with
    | mk ok s2 =>
      rw [hr] at h
      cases ok with
      | false =>
        exact absurd (congrArg Prod.fst h) (by simp)
      | true =>
        obtain ⟨us', h1, h2⟩ := ih s2 h
        rcases assert_step s t sign with heq | ⟨u, hsc, hun⟩
        · rw [hr] at heq
          subst heq
          exact ⟨us', h1, h2⟩
        · rw [hr] at hsc hun
          refine ⟨us' ++ [u], ?_, ?_⟩
          · rw [h1, hsc, List.append_assoc]
            rfl
          · rw [undoList_append, h2, ← hun]
            rfl

/-- C5: push/pop symmetry.  Starting from any reachable context state (one in
which an empty scope stack implies an empty bound map), a sequence of
successful `assert_expr` calls followed by `pop` of the number of scope-stack
entries they pushed restores the entire state — bound map, scope stack, and
hence the scope level — to its prior value.  Idempotent re-assertions and
failed extractions push zero scopes and change nothing, so they are covered. -/
theorem c5_push_pop (s : bstate) (facts : List (bexpr × Bool)) (s' : bstate)
    (hwf : s.scopes = [] → s.bound = [])
    (h : assertAll s facts = (true, s')) :
    pop s' (s'.scopes.length - s.scopes.length) = s := by
  obtain ⟨us, hsc, hun⟩ := assertAll_trace s facts h
  have hlen : s'.scopes.length = us.length + s.scopes.length := by
    rw [hsc, List.length_append]
  unfold pop
  by_cases hse : s'.scopes = []
  · rw [if_pos hse]
    obtain ⟨hu0, hs0⟩ : us = [] ∧ s.scopes = [] := by
      rw [hse] at hsc
      exact List.append_eq_nil.mp hsc.symm
    have hb : s'.bound = s.bound := by rw [← hun, hu0]; rfl
    cases s'
    cases s
    simp_all
  · rw [if_neg hse]
    have hkk : s'.scopes.length - s.scopes.length = us.length := by omega
    rw [hkk]
    by_cases hs0 : s.scopes = []
    · have hz : s'.scopes.length - us.length = 0 := by
        rw [hs0] at hlen
        simp only [List.length_nil] at hlen
        omega
      rw [if_pos hz]
      have hb0 := hwf hs0
      cases s
      simp_all
    · have hnz : ¬(s'.scopes.length - us.length = 0) := by
        have hpos : 0 < s.scopes.length := List.length_pos.mpr hs0
        omega
      rw [if_neg hnz]
      rw [hsc, List.take_left, List.drop_left, hun]

theorem c5_push_pop_witness :
    (assertAll initState [(.ule (.var 0 8) (.num 3 8), false),
        (.ule (.var 0 8) (.num 1 8), false)]).1 = true ∧
    pop (assertAll initState [(.ule (.var 0 8) (.num 3 8), false),
          (.ule (.var 0 8) (.num 1 8), false)]).2
        ((assertAll initState [(.ule (.var 0 8) (.num 3 8), false),
            (.ule (.var 0 8) (.num 1 8), false)]).2.scopes.length -
          initState.scopes.length) =
      initState :=
  ⟨by decide,
    c5_push_pop initState
      [(.ule (.var 0 8) (.num 3 8), false), (.ule (.var 0 8) (.num 1 8), false)]
      (assertAll initState [(.ule (.var 0 8) (.num 3 8), false),
        (.ule (.var 0 8) (.num 1 8), false)]).2
      (fun _ => rfl) (by decide)⟩



/-- C4: `assert_expr` returns failure exactly when an interval is extracted
from the (negation-stripped) atom, the subexpression already has a recorded
interval, and the intersection of the recorded interval with the newly
extracted (and, under negated polarity, negated) interval is empty; it
returns success in every other case, including atoms from which no bound can
be extracted.  The hypothesis excludes the corner the spec calls an
unconditional precondition: a negated polarity whose extracted interval is
already universal, where `negate` has no complement to produce. -/
theorem c4_assert_fail_iff (s : bstate) (t : bexpr) (sign : Bool)
    (hpre : ∀ t1 b, is_bound (stripNot t sign).1 = some (t1, b) →
      (stripNot t sign).2 = true → (interval.negate b).isSome) :
    (assert_expr s t sign).1 = false ↔
      ∃ t1 b b' old, is_bound (stripNot t sign).1 = some (t1, b) ∧
        (if (stripNot t sign).2 then interval.negate b = some b' else b' = b) ∧
        mfind s.bound t1 = some old ∧ old.intersect b' = none := by
  cases hib : is_bound (stripNot t sign).1 with
  | none =>
    rw [assert_expr_none s t sign hib]
    simp [hib]
  | some p =>
    obtain ⟨t1, b0⟩ := p
    have hbe : ∃ beff, (if (stripNot t sign).2 then (interval.negate b0).getD b0 else b0) = beff ∧
        (∀ b', (if (stripNot t sign).2 then interval.negate b0 = some b' else b' = b0) ↔ b' = beff) := by
      cases hsgn : (stripNot t sign).2 with
      | false =>
        refine ⟨b0, by simp, ?_⟩
        intro b'
        simp
      | true =>
        obtain ⟨nb, hnb⟩ := Option.isSome_iff_exists.mp (hpre t1 b0 hib hsgn)
        refine ⟨nb, by simp [hnb], ?_⟩
        intro b'
        simp [hnb, eq_comm]
    obtain ⟨beff, hbeq, hbiff⟩ := hbe
    cases hmf : mfind s.bound t1 with
    | none =>
      rw [assert_expr_fresh s t sign t1 b0 hib hmf]
      simp only [Bool.true_eq_false, false_iff]
      rintro ⟨t1', b, b', old, h1, h2, h3, h4⟩
      injection h1 with h1'
      injection h1' with e1 e2
      subst e1
      rw [hmf] at h3
      exact Option.noConfusion h3
    | some old =>
      rw [assert_expr_old s t sign t1 b0 old hib hmf]
      rw [hbeq]
      cases hint : old.intersect beff with
      | none =>
        constructor
        · intro _
          exact ⟨t1, b0, beff, old, rfl, (hbiff beff).mpr rfl, hmf, hint⟩
        · intro _
          rfl
      | some intr =>
        dsimp only
        by_cases heq : old.eqb intr = true
        · rw [if_pos heq]
          simp only [Bool.true_eq_false, false_iff]
          rintro ⟨t1', b, b', old', h1, h2, h3, h4⟩
          injection h1 with h1'
          injection h1' with e1 e2
          subst e1
          subst e2
          rw [hmf] at h3
          injection h3 with h3'
          subst h3'
          rw [(hbiff b').mp h2] at h4
          rw [hint] at h4
          exact Option.noConfusion h4
        · rw [if_neg heq]
          simp only [Bool.true_eq_false, false_iff]
          rintro ⟨t1', b, b', old', h1, h2, h3, h4⟩
          injection h1 with h1'
          injection h1' with e1 e2
          subst e1
          subst e2
          rw [hmf] at h3
          injection h3 with h3'
          subst h3'
          rw [(hbiff b').mp h2] at h4
          rw [hint] at h4
          exact Option.noConfusion h4


theorem c4_assert_fail_iff_witness :
    (assert_expr (assert_expr initState (.ule (.var 0 8) (.num 3 8)) false).2
        (.ule (.num 5 8) (.var 0 8)) false).1 = false :=
  (c4_assert_fail_iff (assert_expr initState (.ule (.var 0 8) (.num 3 8)) false).2
      (.ule (.num 5 8) (.var 0 8)) false
      (fun _ _ _ hsg => absurd hsg (by decide))).mpr
    ⟨.var 0 8, ⟨5, 255, 8, true⟩, ⟨5, 255, 8, true⟩, ⟨0, 3, 8, true⟩,
      by decide, by decide, by decide, by decide⟩



theorem mfind_mem {m : List (bexpr × interval)} {k : bexpr} {I : interval}
    (h : mfind m k = some I) : (k, I) ∈ m := by
  induction m with
  | nil => exact Option.noConfusion h
  | cons p rest ih =>
    obtain ⟨k', v'⟩ := p
    unfold mfind at h
    by_cases hk : k' = k
    · rw [if_pos hk] at h
      injection h with h'
      subst h'
      subst hk
      exact List.mem_cons_self _ _
    · rw [if_neg hk] at h
      exact List.mem_cons_of_mem _ (ih h)

theorem mem_minsert {m : List (bexpr × interval)} {k : bexpr} {v : interval}
    {p : bexpr × interval} (h : p ∈ minsert m k v) : p = (k, v) ∨ p ∈ m := by
  induction m with
  | nil =>
    unfold minsert at h
    rcases List.mem_singleton.mp h with rfl
    exact Or.inl rfl
  | cons q rest ih =>
    obtain ⟨k', v'⟩ := q
    unfold minsert at h
    by_cases hk : k' = k
    · rw [if_pos hk] at h
      rcases List.mem_cons.mp h with rfl | hmem
      · exact Or.inl rfl
      · exact Or.inr (List.mem_cons_of_mem _ hmem)
    · rw [if_neg hk] at h
      rcases List.mem_cons.mp h with rfl | hmem
      · exact Or.inr (List.mem_cons_self _ _)
      · rcases ih hmem with heq | hmem2
        · exact Or.inl heq
        · exact Or.inr (List.mem_cons_of_mem _ hmem2)

theorem stripNot_sort : ∀ (t : bexpr) (sign : Bool), sortOf t = some .bool →
    sortOf (stripNot t sign).1 = some .bool := by
  intro t
  induction t with
  | not a ih =>
    intro sign hs
    rw [show stripNot (.not a) sign = stripNot a (!sign) from rfl]
    apply ih
    unfold sortOf at hs
    rcases hsa : sortOf a with _ | ty
    · rw [hsa] at hs
      exact Option.noConfusion hs
    · rw [hsa] at hs
      cases ty with
      | bv s => exact Option.noConfusion hs
      | bool => rfl
  | num n sz => intro _ hs; exact hs
  | var i sz => intro _ hs; exact hs
  | ule a b => intro _ hs; exact hs
  | sle a b => intro _ hs; exact hs
  | eq a b => intro _ hs; exact hs
  | btrue => intro _ hs; exact hs
  | bfalse => intro _ hs; exact hs

theorem stripNot_holds (ρ : bexpr → Nat) : ∀ (t : bexpr) (sign : Bool),
    (holdsB ρ (stripNot t sign).1 = !(stripNot t sign).2) ↔ (holdsB ρ t = !sign) := by
  intro t
  induction t with
  | not a ih =>
    intro sign
    rw [show stripNot (.not a) sign = stripNot a (!sign) from rfl]
    rw [ih (!sign)]
    rw [show holdsB ρ (.not a) = !(holdsB ρ a) from rfl]
    cases hba : holdsB ρ a <;> cases sign <;> simp
  | num n sz => intro _; exact Iff.rfl
  | var i sz => intro _; exact Iff.rfl
  | ule a b => intro _; exact Iff.rfl
  | sle a b => intro _; exact Iff.rfl
  | eq a b => intro _; exact Iff.rfl
  | btrue => intro _; exact Iff.rfl
  | bfalse => intro _; exact Iff.rfl

theorem holdsB_eq_holdsAtom (ρ : bexpr → Nat) {e : bexpr} {p : bexpr × interval}
    (h : is_bound e = some p) : holdsB ρ e = holdsAtom ρ e := by
  cases e <;> first | rfl | exact Option.noConfusion h

theorem negate_tight_spec {b : interval} (hinv : b.invariant = true) (ht : b.tight = true)
    (hf : b.is_full = false) :
    ∃ nb, b.negate = some nb ∧ nb.invariant = true ∧ nb.sz = b.sz ∧
      ∀ v, v ≤ uMaxInt b.sz → (nb.contains v = true ↔ ¬(b.contains v = true)) := by
  obtain ⟨h1, h2, h3⟩ := invariant_true_iff.mp hinv
  have hfull : ¬(b.l = 0 ∧ b.h = uMaxInt b.sz) := by
    intro hc
    rw [show b.is_full = decide (b.l = 0 ∧ b.h = uMaxInt b.sz) from rfl] at hf
    rw [decide_eq_false_iff_not] at hf
    exact hf hc
  unfold interval.negate
  rw [ht, hf]
  simp only [Bool.not_true, Bool.false_eq_true, if_false]
  split_ifs with hc1 hc2
  · refine ⟨_, rfl, mkInterval_invariant _ (by omega) (le_refl _), mkInterval_sz .., ?_⟩
    intro v hv
    rw [contains_mk_true_iff, contains_true_iff]
    omega
  · refine ⟨_, rfl, mkInterval_invariant _ (Nat.zero_le _) (by omega), mkInterval_sz .., ?_⟩
    intro v hv
    rw [contains_mk_true_iff, contains_true_iff]
    omega
  · refine ⟨_, rfl, mkInterval_invariant _ (by omega) (by omega), mkInterval_sz .., ?_⟩
    intro v hv
    rw [contains_mk_true_iff, contains_true_iff]
    omega

/-- The invariant maintained by `assert_expr` for a fixed valuation: every
entry of the bound map is a canonical interval keyed by a non-numeral
bit-vector subexpression of the interval's width, and it contains the
valuation's value of that subexpression. -/
def ctxSound (ρ : bexpr → Nat) (s : bstate) : Prop :=
  ∀ p ∈ s.bound, p.2.invariant = true ∧ (∃ i, p.1 = bexpr.var i p.2.sz) ∧
    p.2.contains (beval ρ p.1) = true

theorem assert_sound (ρ : bexpr → Nat) (s : bstate) (t : bexpr) (sign : Bool)
    (hρ : ∀ i sz, ρ (.var i sz) ≤ uMaxInt sz)
    (hts : sortOf t = some .bool)
    (hsat : holdsB ρ t = !sign)
    (hs : ctxSound ρ s) :
    ctxSound ρ (assert_expr s t sign).2 := by
  cases hib : is_bound (stripNot t sign).1 with
  | none =>
    rw [assert_expr_none s t sign hib]
    exact hs
  | some p =>
    obtain ⟨t1, b0⟩ := p
    have hts' : sortOf (stripNot t sign).1 = some .bool := stripNot_sort t sign hts
    obtain ⟨⟨i, hti⟩, hbinv, hbt, hb1, hb64, hiff⟩ := is_bound_spec hts' hib
    have hvv : beval ρ t1 ≤ uMaxInt b0.sz := by
      rw [hti]
      exact hρ i b0.sz
    have hsat' : holdsAtom ρ (stripNot t sign).1 = !(stripNot t sign).2 := by
      rw [← holdsB_eq_holdsAtom ρ hib]
      exact (stripNot_holds ρ t sign).mpr hsat
    have hbfacts : ∀ bb, bb = (if (stripNot t sign).2 then (interval.negate b0).getD b0 else b0) →
        bb.invariant = true ∧ bb.sz = b0.sz ∧ bb.contains (beval ρ t1) = true := by
      intro bb hbb
      cases hsgn : (stripNot t sign).2 with
      | false =>
        rw [hsgn] at hbb
        simp only [Bool.false_eq_true, if_false] at hbb
        subst hbb
        refine ⟨hbinv, rfl, ?_⟩
        apply (hiff ρ hvv).mp
        rw [hsat', hsgn]
        rfl
      | true =>
        rw [hsgn] at hbb
        simp only [if_true] at hbb
        have hnotc : ¬(b0.contains (beval ρ t1) = true) := by
          intro hc
          have h2 := (hiff ρ hvv).mpr hc
          rw [hsat', hsgn] at h2
          exact Bool.noConfusion h2
        by_cases hfull : b0.is_full = true
        · have hcfull : b0.contains (beval ρ t1) = true := by
            rw [contains_true_iff]
            have hfl : b0.l = 0 ∧ b0.h = uMaxInt b0.sz := by
              rw [show b0.is_full = decide (b0.l = 0 ∧ b0.h = uMaxInt b0.sz) from rfl] at hfull
              exact of_decide_eq_true hfull
            omega
          exact absurd hcfull hnotc
        · have hfull' : b0.is_full = false := by
            cases hfb : b0.is_full with
            | false => rfl
            | true => exact absurd hfb hfull
          obtain ⟨nb, hneg, nbinv, nbsz, nbiff⟩ := negate_tight_spec hbinv hbt hfull'
          rw [hneg] at hbb
          simp only [Option.getD_some] at hbb
          subst hbb
          exact ⟨nbinv, nbsz, (nbiff (beval ρ t1) hvv).mpr hnotc⟩
    cases hmf : mfind s.bound t1 with
    | none =>
      rw [assert_expr_fresh s t sign t1 b0 hib hmf]
      obtain ⟨hbf1, hbf2, hbf3⟩ := hbfacts _ rfl
      intro p hp
      rcases mem_minsert hp with heqp | hmem
      · subst heqp
        exact ⟨hbf1, ⟨i, by rw [hbf2]; exact hti⟩, hbf3⟩
      · exact hs p hmem
    | some old =>
      obtain ⟨hoinv, ⟨i', hti'⟩, hocont⟩ := hs (t1, old) (mfind_mem hmf)
      have hosz : old.sz = b0.sz := by
        rw [hti] at hti'
        injection hti' with e1 e2
        exact e2.symm
      rw [assert_expr_old s t sign t1 b0 old hib hmf]
      obtain ⟨hbinv2, hbsz2, hbcont2⟩ := hbfacts _ rfl
      cases hint : old.intersect (if (stripNot t sign).2 then (interval.negate b0).getD b0 else b0) with
      | none => exact hs
      | some intr =>
        dsimp only
        by_cases heq : old.eqb intr = true
        · rw [if_pos heq]
          exact hs
        · rw [if_neg heq]
          have him := intersect_main old
            (if (stripNot t sign).2 then (interval.negate b0).getD b0 else b0)
            hoinv hbinv2 (by rw [hosz, hbsz2])
          obtain ⟨iinv, iisz, _, isound⟩ := him.2 intr hint
          intro p hp
          rcases mem_minsert hp with heqp | hmem
          · subst heqp
            refine ⟨iinv, ⟨i', by rw [iisz]; exact hti'⟩, ?_⟩
            apply isound
            · rw [hosz]
              exact hvv
            · exact hocont
            · exact hbcont2
          · exact hs p hmem

theorem assertAll_sound (ρ : bexpr → Nat) (hρ : ∀ i sz, ρ (.var i sz) ≤ uMaxInt sz) :
    ∀ (facts : List (bexpr × Bool)) (s : bstate),
    (∀ p ∈ facts, sortOf p.1 = some sty.bool) →
    (∀ p ∈ facts, holdsB ρ p.1 = !p.2) →
    ctxSound ρ s → ctxSound ρ (assertAll s facts).2 := by
  intro facts
  induction facts with
  | nil =>
    intro s _ _ hs
    exact hs
  | cons f rest ih =>
    intro s hsorts hsat hs
    obtain ⟨t, sign⟩ := f
    unfold assertAll
    have hs2 : ctxSound ρ (assert_expr s t sign).2 :=
      assert_sound ρ s t sign hρ (hsorts (t, sign) (List.mem_cons_self _ _))
        (hsat (t, sign) (List.mem_cons_self _ _)) hs
    cases hr : assert_expr s t sign with
    | mk ok s2 =>
      rw [hr] at hs2
      cases ok with
      | true =>
        exact ih s2 (fun p hp => hsorts p (List.mem_cons_of_mem _ hp))
          (fun p hp => hsat p (List.mem_cons_of_mem _ hp)) hs2
      | false => exact hs2

/-- C1: context soundness.  For every sequence of well-sorted `assert` calls
that all return success, starting from the fresh context, and for every
width-respecting valuation satisfying all asserted facts (an atom asserted
with `sign = true` is asserted false), every interval stored in the bound map
contains the valuation's value of its subexpression. -/
theorem c1_context_soundness (facts : List (bexpr × Bool)) (s' : bstate) (ρ : bexpr → Nat)
    (hρ : ∀ i sz, ρ (.var i sz) ≤ uMaxInt sz)
    (hsorts : ∀ p ∈ facts, sortOf p.1 = some sty.bool)
    (hsat : ∀ p ∈ facts, holdsB ρ p.1 = !p.2)
    (hrun : assertAll initState facts = (true, s')) :
    ∀ t1 I, mfind s'.bound t1 = some I → I.contains (beval ρ t1) = true := by
  intro t1 I hf
  have hsound := assertAll_sound ρ hρ facts initState hsorts hsat
    (fun p hp => absurd hp (List.not_mem_nil p))
  rw [hrun] at hsound
  exact (hsound (t1, I) (mfind_mem hf)).2.2


theorem c1_context_soundness_witness :
    mfind (assertAll initState [(.ule (.var 0 8) (.num 5 8), false)]).2.bound (.var 0 8) =
      some ⟨0, 5, 8, true⟩ ∧
    interval.contains ⟨0, 5, 8, true⟩ 3 = true :=
  ⟨by decide,
    c1_context_soundness [(.ule (.var 0 8) (.num 5 8), false)]
      (assertAll initState [(.ule (.var 0 8) (.num 5 8), false)]).2
      (fun e => if e = .var 0 8 then 3 else 0)
      (by
        intro i sz
        show (if bexpr.var i sz = bexpr.var 0 8 then 3 else 0) ≤ uMaxInt sz
        by_cases hh : bexpr.var i sz = bexpr.var 0 8
        · rw [if_pos hh]
          injection hh with e1 e2
          subst e2
          decide
        · rw [if_neg hh]
          exact Nat.zero_le _)
      (by decide) (by decide) (by decide)
      (.var 0 8) ⟨0, 5, 8, true⟩ (by decide)⟩


/-- `bv_bounds_simplifier::get_expr_vars`: the memoized set of non-numeral
subexpressions reachable from a node.  Note the source inserts every
non-numeral node it visits (including inner nodes and the node itself), not
only leaves; membership in the returned list models membership in the set. -/
def get_expr_vars : bexpr → List bexpr
  | .num _ _ => []
  | .var i sz => [.var i sz]
  | .ule a b => .ule a b :: (get_expr_vars a ++ get_expr_vars b)
  | .sle a b => .sle a b :: (get_expr_vars a ++ get_expr_vars b)
  | .eq a b => .eq a b :: (get_expr_vars a ++ get_expr_vars b)
  | .not a => .not a :: get_expr_vars a
  | .btrue => [.btrue]
  | .bfalse => [.bfalse]

/-- `bv_bounds_simplifier::expr_has_bounds`: does the subtree contain a
comparison or equality with a numeral operand?  (The memo cache is
semantically transparent and omitted.) -/
def expr_has_bounds : bexpr → Bool
  | .ule a b => (isNumeral a || isNumeral b) || expr_has_bounds a || expr_has_bounds b
  | .sle a b => (isNumeral a || isNumeral b) || expr_has_bounds a || expr_has_bounds b
  | .eq a b => (isNumeral a || isNumeral b) || expr_has_bounds a || expr_has_bounds b
  | .not a => expr_has_bounds a
  | _ => false

/-- The tail of `bv_bounds_simplifier::simplify` after the candidate interval
`b` and the (possibly reset) polarity `sign` are fixed: the
tautology/contradiction/equality-propagation analysis against the context,
followed by re-applying the recorded negation to the produced rewrite. -/
def simplifyFinal (propagate_eq : Bool) (s : bstate) (t1 : bexpr) (b : interval)
    (sign : Bool) : Option bexpr :=
  let result : Option bexpr :=
    if b.is_full && b.tight then some .btrue
    else
      match mfind s.bound t1 with
      | some ctx =>
        if ctx.implies b then some .btrue
        else
          match b.intersect ctx with
          | none => some .bfalse
          | some intr =>
            if propagate_eq && intr.is_singleton then
              some (.eq t1 (.num intr.l (bwidth t1)))
            else none
      | none => none
  match result with
  | some r => some (if sign then .not r else r)
  | none => none

/-- `bv_bounds_simplifier::simplify` after the leading singleton-rewrite
check: decline non-boolean terms, strip negations, extract a candidate
interval, re-negate a negated tight candidate (rewriting to `false` when the
candidate is universal and has no complement), then analyze against the
context. -/
def simplifyRest (propagate_eq : Bool) (s : bstate) (t : bexpr) : Option bexpr :=
  if isBool t then
    match is_bound (stripNot t false).1 with
    | none => none
    | some (t1, b) =>
      if (stripNot t false).2 && b.tight then
        match b.negate with
        | none => some .bfalse
        | some nb => simplifyFinal propagate_eq s t1 nb false
      else simplifyFinal propagate_eq s t1 b (stripNot t false).2
  else none

/-- `bv_bounds_simplifier::simplify`; `none` models returning `false`
(no rewrite).  The leading check rewrites a term whose own context interval
is a singleton to the corresponding numeral. -/
def simplify (propagate_eq : Bool) (s : bstate) (t : bexpr) : Option bexpr :=
  match mfind s.bound t with
  | some b1 =>
    if b1.is_singleton then some (.num b1.l (bwidth t))
    else simplifyRest propagate_eq s t
  | none => simplifyRest propagate_eq s t

/-- `bv_bounds_simplifier::may_simplify`: false on numerals; true when some
currently-bound singleton's subexpression occurs among the term's expression
variables; for an extractable bound atom, true iff the candidate is full or
its subexpression has context; otherwise, whether the subtree contains any
bound-shaped atom. -/
def may_simplify (s : bstate) (t : bexpr) : Bool :=
  if isNumeral t then false
  else
    if s.bound.any (fun p =>
        p.2.is_singleton && (get_expr_vars (stripNot t false).1).contains p.1) then true
    else
      match is_bound (stripNot t false).1 with
      | some (t1, b) => b.is_full || (mfind s.bound t1).isSome
      | none => expr_has_bounds (stripNot t false).1



/-- C8 counterexample: from the empty context over the width-8 subexpression
`x`, asserting `¬(x ≤ᵤ 5)` succeeds (recording the non-tight interval
`[6, 255]` for `x`), but simplifying `x ≤ᵤ 200` does NOT rewrite it to
`true`: `[6, 255]` does not imply `[0, 200]` (255 > 200), so the claimed
rewrite does not happen. -/
theorem c8_scenario_e_cex :
    (assert_expr initState (.not (.ule (.var 0 8) (.num 5 8))) false).1 = true ∧
    ¬(simplify false (assert_expr initState (.not (.ule (.var 0 8) (.num 5 8))) false).2
        (.ule (.var 0 8) (.num 200 8)) = some .btrue) := by decide

/-- C8 amended: the assert of `¬(x ≤ᵤ 5)` succeeds and records the non-tight
interval `[6, 255]` for `x`; the subsequent simplify of `x ≤ᵤ 200` declines
(returns no rewrite), because the context `[6, 255]` does not imply
`[0, 200]` and their intersection `[6, 200]` is neither empty nor (with
`propagate_eq` at its default `false`) propagated. -/
theorem c8_scenario_e_amended :
    (assert_expr initState (.not (.ule (.var 0 8) (.num 5 8))) false).1 = true ∧
    mfind (assert_expr initState (.not (.ule (.var 0 8) (.num 5 8))) false).2.bound
      (.var 0 8) = some ⟨6, 255, 8, false⟩ ∧
    simplify false (assert_expr initState (.not (.ule (.var 0 8) (.num 5 8))) false).2
      (.ule (.var 0 8) (.num 200 8)) = none := by decide

theorem is_bound_tight {e t1 : bexpr} {b : interval} (h : is_bound e = some (t1, b)) :
    b.tight = true := by
  cases e with
  | num n sz => exact Option.noConfusion h
  | var i sz => exact Option.noConfusion h
  | btrue => exact Option.noConfusion h
  | bfalse => exact Option.noConfusion h
  | not a => exact Option.noConfusion h
  | ule lhs rhs =>
    simp only [is_bound] at h
    split at h
    · split at h
      · exact Option.noConfusion h
      · simp only [Option.some.injEq, Prod.mk.injEq] at h
        rw [← h.2]
        exact mkInterval_tight ..
    · split at h
      · simp only [Option.some.injEq, Prod.mk.injEq] at h
        rw [← h.2]
        exact mkInterval_tight ..
      · exact Option.noConfusion h
  | sle lhs rhs =>
    simp only [is_bound] at h
    split at h
    · split at h
      · exact Option.noConfusion h
      · simp only [Option.some.injEq, Prod.mk.injEq] at h
        rw [← h.2]
        exact mkInterval_tight ..
    · split at h
      · simp only [Option.some.injEq, Prod.mk.injEq] at h
        rw [← h.2]
        exact mkInterval_tight ..
      · exact Option.noConfusion h
  | eq lhs rhs =>
    simp only [is_bound] at h
    split at h
    · split at h
      · exact Option.noConfusion h
      · simp only [Option.some.injEq, Prod.mk.injEq] at h
        rw [← h.2]
        exact mkInterval_tight ..
    · split at h
      · simp only [Option.some.injEq, Prod.mk.injEq] at h
        rw [← h.2]
        exact mkInterval_tight ..
      · exact Option.noConfusion h

theorem negate_tight_not_full {b : interval} (ht : b.tight = true) (hf : b.is_full = false) :
    ∃ nb, b.negate = some nb ∧ nb.tight = false := by
  unfold interval.negate
  rw [ht, hf]
  simp only [Bool.not_true, Bool.false_eq_true, if_false]
  split_ifs <;> exact ⟨_, rfl, mkInterval_tight ..⟩

theorem simplifyFinal_none (pe : Bool) (s : bstate) (t1 : bexpr) (b : interval) (sign : Bool)
    (h1 : (b.is_full && b.tight) = false) (h2 : mfind s.bound t1 = none) :
    simplifyFinal pe s t1 b sign = none := by
  unfold simplifyFinal
  rw [h1, h2]
  rfl

theorem mfind_none_not_var {m : List (bexpr × interval)}
    (hkeys : ∀ p ∈ m, ∃ i sz, p.1 = bexpr.var i sz) {k : bexpr}
    (hk : ∀ i sz, k ≠ bexpr.var i sz) : mfind m k = none := by
  cases hf : mfind m k with
  | none => rfl
  | some I =>
    obtain ⟨i, sz, hp⟩ := hkeys (k, I) (mfind_mem hf)
    exact absurd hp (hk i sz)

/-- C9: `may_simplify` is a sound pre-filter.  For every term and every state
whose bound-map keys are non-numeral bit-vector subexpressions (as every
state reached through well-sorted asserts is), if `may_simplify` returns
`false` then `simplify` declines (returns no rewrite), for either value of
the `propagate_eq` option. -/
theorem c9_may_simplify_sound (s : bstate) (pe : Bool) (t : bexpr)
    (hkeys : ∀ p ∈ s.bound, ∃ i sz, p.1 = bexpr.var i sz)
    (hms : may_simplify s t = false) :
    simplify pe s t = none := by
  unfold may_simplify at hms
  split_ifs at hms with h1 h2
  · -- t is a numeral
    have hnum : ∃ n sz, t = bexpr.num n sz := by
      cases t <;> first | exact ⟨_, _, rfl⟩ | exact Bool.noConfusion h1
    obtain ⟨n, sz, rfl⟩ := hnum
    unfold simplify
    rw [mfind_none_not_var hkeys (fun i sz' => by intro hx; exact bexpr.noConfusion hx)]
    unfold simplifyRest
    rfl
  · -- main branch
    unfold simplify
    cases hmf : mfind s.bound t with
    | some b1 =>
      obtain ⟨i, sz, htv⟩ := hkeys (t, b1) (mfind_mem hmf)
      subst htv
      have hns : b1.is_singleton = false := by
        cases hsing : b1.is_singleton with
        | false => rfl
        | true =>
          exfalso
          apply h2
          rw [List.any_eq_true]
          refine ⟨(bexpr.var i sz, b1), mfind_mem hmf, ?_⟩
          rw [Bool.and_eq_true]
          refine ⟨hsing, ?_⟩
          show ([bexpr.var i sz].contains (bexpr.var i sz)) = true
          simp
      dsimp only
      rw [hns]
      simp only [Bool.false_eq_true, if_false]
      unfold simplifyRest
      rfl
    | none =>
      cases hbool : isBool t with
      | false =>
        unfold simplifyRest
        rw [hbool]
        rfl
      | true =>
        unfold simplifyRest
        rw [hbool]
        simp only [if_true]
        split at hms
        · -- is_bound = some (t1, b)
          rename_i t1 b hib
          rw [hib]
          dsimp only
          rw [Bool.or_eq_false_iff] at hms
          obtain ⟨hbf, hfnd⟩ := hms
          have hfnd' : mfind s.bound t1 = none := by
            cases hx : mfind s.bound t1 with
            | none => rfl
            | some v => rw [hx] at hfnd; exact Bool.noConfusion hfnd
          have hbt := is_bound_tight hib
          cases hsgn : (stripNot t false).2 with
          | false =>
            simp only [Bool.false_and, Bool.false_eq_true, if_false]
            exact simplifyFinal_none pe s t1 b false
              (by rw [hbf, Bool.false_and]) hfnd'
          | true =>
            rw [hbt]
            simp only [Bool.and_self, if_true]
            obtain ⟨nb, hneg, hnbt⟩ := negate_tight_not_full hbt hbf
            rw [hneg]
            exact simplifyFinal_none pe s t1 nb false
              (by rw [hnbt, Bool.and_false]) hfnd'
        · -- is_bound = none
          rename_i hib
          rw [hib]
      

theorem c9_may_simplify_sound_witness :
    may_simplify (assert_expr initState (.ule (.var 0 8) (.num 3 8)) false).2
      (.ule (.var 1 8) (.num 5 8)) = false ∧
    simplify false (assert_expr initState (.ule (.var 0 8) (.num 3 8)) false).2
      (.ule (.var 1 8) (.num 5 8)) = none :=
  ⟨by decide,
    c9_may_simplify_sound (assert_expr initState (.ule (.var 0 8) (.num 3 8)) false).2
      false (.ule (.var 1 8) (.num 5 8))
      (by
        intro p hp
        have hb : (assert_expr initState (.ule (.var 0 8) (.num 3 8)) false).2.bound =
            [(bexpr.var 0 8, (⟨0, 3, 8, true⟩ : interval))] := by decide
        rw [hb] at hp
        rw [List.mem_singleton.mp hp]
        exact ⟨0, 8, rfl⟩)
      (by decide)⟩

end BvBounds
